import Mathlib

/-!
Verification development for the fusion-companies dashboard
(`src/fusion_dashboard.py`).

The Python program loads a JSON catalog of fusion companies into a flat
pandas dataframe (`pd.json_normalize`), applies sidebar filters
(`isin` on `fuel_source` and `general_approach`, lines 79-82), tab-local
search and funding-threshold filters (lines 235-244), and computes metric
cards (lines 85-109), categorical distributions (`value_counts`,
lines 198 and 208) and display formatting (lines 139, 146-147, 261-262).

This file gives a shallow embedding of that pipeline:

* a dataframe row becomes a `Company` record; a missing numeric cell
  (`NaN` after `json_normalize`) becomes `none`;
* boolean-mask filtering becomes `List.filter`, which keeps base order;
* pandas `mean`/`sum` skip `none` values, as they skip `NaN`;
* rational numbers stand in for the float arithmetic of the source
  (every concrete value used in the claims is exact in both);
* arithmetic on `ℚ` is phrased through `mkRat` so that every definition
  evaluates by kernel reduction; bridging lemmas relate these to the
  ordinary field operations.

Library calls of the source (`eval`, `str.contains`, `value_counts`,
`"%.1f"` formatting, `[:4]` slicing) are modelled by Lean definitions of
their documented behaviour on the input shapes that occur here; each such
model carries a doc comment stating the modelled semantics.
-/

namespace FusionDash

/-- Milestones cell: `json_normalize` delivers either a plain string or an
already-parsed list of strings (source branches on `isinstance(..., str)`,
line 152). -/
inductive MsField where
  | str (s : String)
  | listv (l : List String)
deriving DecidableEq

/-- One row of the normalized dataframe.  Columns are those accessed by the
source; the nested JSON fields `funding.amount` and `commercial_output.mwe`
appear as the dotted columns produced by `pd.json_normalize`.  Numeric cells
may be absent (`NaN` in the frame), modelled by `Option`. -/
structure Company where
  name : String
  description : String
  location : String
  year_founded : String
  employees : Option Nat
  general_approach : String
  specific_approach : String
  fuel_source : String
  pilot_plant_timeline : String
  funding_amount : Option ℚ
  commercial_output_mwe : Option ℚ
  milestones_past_12_months : MsField
deriving DecidableEq

/-! ## Filter engine -/

/-- Row predicate of the sidebar filter, lines 79-82:
`df['fuel_source'].isin(selected_fuel_sources) &
 df['general_approach'].isin(selected_approaches)`. -/
def sidebarPred (fuels approaches : List String) (r : Company) : Bool :=
  decide (r.fuel_source ∈ fuels) && decide (r.general_approach ∈ approaches)

/-- Sidebar filter application (boolean-mask row selection, lines 79-82). -/
def sidebarFilter (fuels approaches : List String) (df : List Company) :
    List Company :=
  df.filter (sidebarPred fuels approaches)

/-- Modelled library semantics: one-character match of Python `re` with
`re.IGNORECASE`, for the pattern fragment used in this file - a pattern
character is either the metacharacter matching any character, or a literal
matching itself case-insensitively (ASCII case, via `Char.toLower`). -/
def charMatch (p c : Char) : Bool :=
  p = '.' || p.toLower = c.toLower

/-- Modelled library semantics: `re` match of a (literal-and-dot) pattern
against a prefix of the text. -/
def matchAt : List Char → List Char → Bool
  | [], _ => true
  | _ :: _, [] => false
  | p :: ps, c :: cs => charMatch p c && matchAt ps cs

/-- Modelled library semantics: `re.search` - the pattern matches at some
position of the text.  `pandas.Series.str.contains(term, case=False)`
compiles `term` as a regular expression (its `regex` parameter defaults to
`True`) with `re.IGNORECASE` and calls `re.search`. -/
def reSearch (pat : List Char) : List Char → Bool
  | [] => matchAt pat []
  | c :: cs => matchAt pat (c :: cs) || reSearch pat cs

/-- Row predicate of the tab-local search, lines 238-240:
`name.str.contains(search_term, case=False) |
 description.str.contains(search_term, case=False)`. -/
def searchPred (term : String) (r : Company) : Bool :=
  reSearch term.data r.name.data || reSearch term.data r.description.data

/-- Search stage, lines 237-241: applied only when the term is non-empty
(`if search_term:` - the empty string is falsy). -/
def searchApply (term : String) (df : List Company) : List Company :=
  if term = "" then df else df.filter (searchPred term)

/-- Row predicate of the funding threshold, line 244:
`final_df['funding.amount'] >= min_funding * 1e6`.  A `NaN` cell compares
`False` in pandas, so an absent amount is excluded. -/
def fundingPred (minFunding : Nat) (r : Company) : Bool :=
  match r.funding_amount with
  | none => false
  | some q => decide (((minFunding * 1000000 : Nat) : ℚ) ≤ q)

/-- Funding-threshold stage, lines 243-244: applied only when
`min_funding > 0`. -/
def fundingApply (minFunding : Nat) (df : List Company) : List Company :=
  if 0 < minFunding then df.filter (fundingPred minFunding) else df

/-- Predicate set of the filter engine: sidebar multiselects plus the
tab-local search term and funding threshold (threshold in millions USD, as
entered in the `number_input` of line 227). -/
structure PredicateSet where
  fuelSources : List String
  approaches : List String
  searchTerm : String
  minFundingM : Nat
deriving DecidableEq

/-- Composed filter pipeline: sidebar filters (lines 79-82) followed by the
tab-local search and threshold stages (lines 235-244). -/
def applyFilters (P : PredicateSet) (df : List Company) : List Company :=
  fundingApply P.minFundingM
    (searchApply P.searchTerm
      (sidebarFilter P.fuelSources P.approaches df))

/-- Row-level conjunction of all active predicates of a predicate set. -/
def activePred (P : PredicateSet) (r : Company) : Bool :=
  sidebarPred P.fuelSources P.approaches r
    && (decide (P.searchTerm = "") || searchPred P.searchTerm r)
    && (decide (P.minFundingM = 0) || fundingPred P.minFundingM r)

/-! ## Exact rational arithmetic

The field operations of `ℚ` are irreducible to the kernel, so the
embedding computes through `mkRat` and integer arithmetic; the lemmas
`qadd_eq`, `qsum_eq` and `scaleDown_eq` relate these to `+`, `List.sum`
and `/`. -/

/-- Rational addition computed through `mkRat`. -/
def qadd (a b : ℚ) : ℚ := mkRat (a.num * b.den + b.num * a.den) (a.den * b.den)

/-- Sum of a list of rationals (`Series.sum` over the present cells). -/
def qsum (l : List ℚ) : ℚ := l.foldr qadd 0

/-- Division of a rational by a natural number, computed through `mkRat`. -/
def scaleDown (x : ℚ) (k : Nat) : ℚ := mkRat x.num (x.den * k)

/-- Python `int()` conversion of a float: truncation toward zero. -/
def truncQ (q : ℚ) : ℤ := q.num.tdiv (q.den : ℤ)

/-- Round to the nearest integer with ties to even, computed on
numerator/denominator (the rounding applied by Python fixed-point float
formatting). -/
def rhe (q : ℚ) : ℤ :=
  let d : ℤ := (q.den : ℤ)
  let f : ℤ := q.num / d
  let r : ℤ := q.num % d
  if 2 * r < d then f
  else if d < 2 * r then f + 1
  else if f % 2 = 0 then f else f + 1

/-! ## Aggregator -/

/-- Cells of a numeric column that are present; pandas `mean` and `sum`
skip `NaN` cells. -/
def presentVals (get : Company → Option ℚ) (view : List Company) : List ℚ :=
  view.filterMap get

/-- Employees column, as rational values. -/
def employeesQ (r : Company) : Option ℚ := r.employees.map (fun n => (n : ℚ))

/-- Commercial-output column `commercial_output.mwe`. -/
def outputQ (r : Company) : Option ℚ := r.commercial_output_mwe

/-- Funding column `funding.amount`. -/
def fundingQ (r : Company) : Option ℚ := r.funding_amount

/-- Arithmetic mean of a list of rationals (`Series.mean` over the present
cells of a column). -/
def meanQ (vs : List ℚ) : ℚ := scaleDown (qsum vs) vs.length

/-- Average metric card of lines 97-109: `"0"` for an empty view (the
`else` branch of the source), otherwise `int(column.mean())` printed.
`none` models the `ValueError` raised by `int(...)` when the view is
non-empty but every cell of the column is absent: pandas `mean` of an
all-`NaN` column returns `NaN`, and `int(nan)` raises. -/
def meanCard (get : Company → Option ℚ) (view : List Company) :
    Option String :=
  if view.isEmpty then some "0"
  else
    if (presentVals get view).isEmpty then none
    else some (toString (truncQ (meanQ (presentVals get view))))

/-- Avg Employees card, lines 97-102. -/
def avgEmployeesCard (view : List Company) : Option String :=
  meanCard employeesQ view

/-- Avg Output card, lines 104-109 (the value is suffixed with " MWe" in
both branches of the source). -/
def avgOutputCard (view : List Company) : Option String :=
  (meanCard outputQ view).map (fun s => s ++ " MWe")

/-! ## Categorical distributions (`value_counts`, lines 198 and 208)

`Series.value_counts` counts the distinct values of a column with a
hash-based group-by whose keys come out in order of first appearance, then
sorts by count in descending order with a stable sort, so equal counts keep
the first-appearance order. -/

/-- Modelled library semantics: the counting phase of `value_counts` - each
distinct value paired with its occurrence count, keyed in first-appearance
order.  `fuel` bounds the recursion; the list length suffices. -/
def tallyF : Nat → List String → List (String × Nat)
  | _, [] => []
  | 0, _ :: _ => []
  | fuel + 1, a :: l =>
      (a, 1 + l.count a) :: tallyF fuel (l.filter (fun b => !(b == a)))

/-- First-appearance-ordered distinct counts of a list of values. -/
def tally (l : List String) : List (String × Nat) := tallyF l.length l

/-- Descending-count order used to sort the distribution. -/
def cntGE (p q : String × Nat) : Prop := q.2 ≤ p.2

instance : DecidableRel cntGE := fun p q => Nat.decLe q.2 p.2

instance : IsTotal (String × Nat) cntGE := ⟨fun p q => Nat.le_total q.2 p.2⟩

instance : IsTrans (String × Nat) cntGE :=
  ⟨fun _ _ _ h1 h2 => Nat.le_trans h2 h1⟩

/-- Modelled library semantics: `Series.value_counts` - distinct values with
their counts, sorted by descending count with a stable sort over the
first-appearance key order. -/
def value_counts (l : List String) : List (String × Nat) :=
  List.insertionSort cntGE (tally l)

/-- Chart data `approach_counts`, line 198. -/
def approach_counts (view : List Company) : List (String × Nat) :=
  value_counts (view.map Company.general_approach)

/-- Chart data `fuel_counts`, line 208. -/
def fuel_counts (view : List Company) : List (String × Nat) :=
  value_counts (view.map Company.fuel_source)

/-! ## Presentation formatter -/

/-- Modelled library semantics: Python fixed-point formatting `"%.1f"` of a
non-negative value `v`, given the pre-scaled argument `t = 10 * v`: the
number of tenths is rounded to the nearest integer with ties to even (the
behaviour of float formatting on values exactly representable in both
binary and decimal, which covers the amounts used here) and printed with
one digit after the decimal point. -/
def fmtTenths (t : ℚ) : String :=
  toString ((rhe t).toNat / 10) ++ "." ++ toString ((rhe t).toNat % 10)

/-- Modelled library semantics: Python `"%.0f"` formatting of a
non-negative value - round to nearest, ties to even, no decimal point. -/
def fmtWhole (v : ℚ) : String := toString (rhe v).toNat

/-- Funding cell of the detail table, line 261:
`lambda x: f"${x/1e6:.1f}M"` (millions, one decimal).  The tenths argument
is `x / 1e5 = (x / 1e6) * 10`. -/
def detailFundingCell (x : ℚ) : String :=
  "$" ++ fmtTenths (scaleDown x 100000) ++ "M"

/-- Per-company funding metric, lines 146-147:
`funding_millions = funding / 1e6` shown as `f"${funding_millions:.0f}M"`
(millions, zero decimals). -/
def companyFundingMetric (x : ℚ) : String :=
  "$" ++ fmtWhole (scaleDown x 1000000) ++ "M"

/-- Total Funding card, lines 90-95: the `funding.amount` column summed
(pandas `sum` skips `NaN` and returns `0.0` when nothing is present),
divided by `1e9` and shown as `f"${total_funding:.1f}B"`; the empty view
shows `"$0B"`.  The tenths argument is `sum / 1e8`. -/
def totalFundingCard (view : List Company) : String :=
  if view.isEmpty then "$0B"
  else "$" ++ fmtTenths (scaleDown (qsum (presentVals fundingQ view)) 100000000) ++ "B"

/-- Year formatting of lines 139 and 262: the Python slice
`year_founded[:4]` - the first four characters, or the whole string when it
is shorter. -/
def yearFmt (s : String) : String := String.mk (s.data.take 4)

/-! ## Milestones branch (lines 150-158) -/

/-- State of the list-of-string-literals parser used to model `eval` on the
shapes that can occur in the milestones cell. -/
inductive PState where
  | atStart
  | needItem (acc : List String)
  | inStr (q : Char) (cur : List Char) (acc : List String)
  | afterItem (acc : List String)
  | closed (acc : List String)
  | failed
deriving DecidableEq

/-- Single-quote character. -/
def squote : Char := Char.ofNat 39

/-- Double-quote character. -/
def dquote : Char := Char.ofNat 34

/-- One step of the literal parser. -/
def pstep (st : PState) (c : Char) : PState :=
  match st with
  | PState.atStart =>
      if c = ' ' then PState.atStart
      else if c = '[' then PState.needItem []
      else PState.failed
  | PState.needItem acc =>
      if c = ' ' then PState.needItem acc
      else if c = squote || c = dquote then PState.inStr c [] acc
      else if c = ']' then PState.closed acc
      else PState.failed
  | PState.inStr q cur acc =>
      if c = q then PState.afterItem (String.mk cur.reverse :: acc)
      else PState.inStr q (c :: cur) acc
  | PState.afterItem acc =>
      if c = ' ' then PState.afterItem acc
      else if c = ',' then PState.needItem acc
      else if c = ']' then PState.closed acc
      else PState.failed
  | PState.closed acc =>
      if c = ' ' then PState.closed acc else PState.failed
  | PState.failed => PState.failed

/-- Modelled library semantics: Python `eval` restricted to the input
shapes of the milestones cell.  On a string that is a list-of-strings
literal (the shape the data can carry) it returns the parsed list; on any
other string the evaluation raises (`SyntaxError`/`NameError`/...), which
is modelled by `none`.  The essential property is that there is no
fall-back: a non-literal input produces an exception, never a default
value.  (That `eval` also executes arbitrary expressions - the security
defect - is outside what a terminating model can capture; the model is
faithful on error-vs-default behaviour.) -/
def evalPyList (s : String) : Option (List String) :=
  match s.data.foldl pstep PState.atStart with
  | PState.closed acc => some acc.reverse
  | _ => none

/-- Milestones branch, lines 152-155: a string cell goes through `eval`,
any other cell is used as is.  `none` models an uncaught exception. -/
def milestonesOf (v : MsField) : Option (List String) :=
  match v with
  | MsField.str s => evalPyList s
  | MsField.listv l => some l

/-! ## Pipeline entry (lines 52-57) -/

/-- Outcome of the guarded part of `main`: either the terminal no-data
message (lines 55-57) or the dashboard built from the sidebar-filtered
view. -/
inductive MainOutcome where
  | noData (msg : String)
  | dashboard (filteredView : List Company)
deriving DecidableEq

/-- Error message of line 56. -/
def noDataMsg : String :=
  "Failed to load data from API. Please refresh the page to try again."

/-- Guarded pipeline start, lines 52-82: `load_data_from_api` returns
`None` on any fetch/parse failure (`none` here); `main` stops with the
error message when the frame is `None` or empty, and only otherwise
proceeds to filtering.  The fetched frame is modelled as an optional list
of rows. -/
def runMain (fetched : Option (List Company)) (fuels approaches : List String) :
    MainOutcome :=
  match fetched with
  | none => MainOutcome.noData noDataMsg
  | some df =>
      if df.isEmpty then MainOutcome.noData noDataMsg
      else MainOutcome.dashboard (sidebarFilter fuels approaches df)

/-! ## Spec-side notion: case-insensitive literal substring

The specification describes the search as a case-insensitive substring
test.  These definitions state that semantics directly, to be compared
with the regular-expression behaviour of the code. -/

/-- Literal case-insensitive prefix test (character-wise `Char.toLower`
comparison). -/
def litPrefix : List Char → List Char → Bool
  | [], _ => true
  | _ :: _, [] => false
  | p :: ps, c :: cs => decide (p.toLower = c.toLower) && litPrefix ps cs

/-- Literal case-insensitive occurrence test: the pattern occurs at some
position of the text. -/
def litSearch (pat : List Char) : List Char → Bool
  | [] => litPrefix pat []
  | c :: cs => litPrefix pat (c :: cs) || litSearch pat cs

/-- Case-insensitive substring test between strings - the semantics the
specification ascribes to the search box. -/
def substringCI (term s : String) : Bool := litSearch term.data s.data

/-! ## Concrete catalog rows used by witnesses and counterexamples -/

/-- Compact row builder: name, description, fuel source, general approach,
employees, funding, output; the remaining columns take fixed values. -/
def mkCo (n d f g : String) (e : Option Nat) (fu o : Option ℚ) : Company :=
  ⟨n, d, "", "2012-01-01", e, g, "", f, "", fu, o, MsField.listv []⟩

/-- Demo row: D-T tokamak company. -/
def demo1 : Company :=
  mkCo "Alpha Fusion" "Tokamak pioneer" "D-T" "MCF"
    (some 10) (some 2500000) (some 100)

/-- Demo row: D-D laser company with absent funding. -/
def demo2 : Company :=
  mkCo "Beta Energy" "Laser lab" "D-D" "ICF" (some 9) none (some 40)

/-- Demo row with every numeric cell absent. -/
def noNums : Company := mkCo "Gamma" "no numbers here" "p-B11" "MTF" none none none

/-- Demo row whose name and description contain no dot. -/
def dotRec : Company := mkCo "AB" "xy" "D-T" "MCF" none none none

/-- Ten-row view whose employee counts average 9.9. -/
def demoTen : List Company :=
  mkCo "C1" "" "D-T" "MCF" (some 9) none none ::
    List.replicate 9 (mkCo "C2" "" "D-T" "MCF" (some 10) none none)

theorem searchApply_eq_filter (term : String) (df : List Company) :
    searchApply term df
      = df.filter (fun r => decide (term = "") || searchPred term r) := by
  unfold searchApply
  by_cases h : term = ""
  · simp [h]
  · simp [h]

theorem fundingApply_eq_filter (m : Nat) (df : List Company) :
    fundingApply m df
      = df.filter (fun r => decide (m = 0) || fundingPred m r) := by
  unfold fundingApply
  by_cases h : 0 < m
  · have hm : ¬ m = 0 := Nat.pos_iff_ne_zero.mp h
    simp only [if_pos h]
    exact List.filter_congr (fun r _ => by simp [hm])
  · have hm : m = 0 := Nat.eq_zero_of_not_pos h
    simp [if_neg h, hm]

/-- Whole pipeline as a single row-wise filter. -/
theorem applyFilters_eq_filter (P : PredicateSet) (df : List Company) :
    applyFilters P df = df.filter (activePred P) := by
  unfold applyFilters sidebarFilter
  rw [searchApply_eq_filter, fundingApply_eq_filter,
    List.filter_filter, List.filter_filter]
  exact List.filter_congr (fun r _ => by
    simp [activePred, Bool.and_assoc, Bool.and_comm, Bool.and_left_comm])

theorem qadd_eq (a b : ℚ) : qadd a b = a + b := (Rat.add_def' a b).symm

theorem qsum_eq (l : List ℚ) : qsum l = l.sum := by
  induction l with
  | nil => rfl
  | cons a t ih =>
      show qadd a (qsum t) = (a :: t).sum
      rw [qadd_eq, ih, List.sum_cons]

theorem scaleDown_eq (x : ℚ) (k : Nat) : scaleDown x k = x / (k : ℚ) := by
  unfold scaleDown
  rw [Rat.mkRat_eq_div]
  push_cast
  rw [← div_div, Rat.num_div_den]

theorem truncQ_eq_floor (q : ℚ) (h : 0 ≤ q) : truncQ q = Int.floor q := by
  unfold truncQ
  rw [Int.tdiv_eq_ediv (Rat.num_nonneg.mpr h) (Int.natCast_nonneg _)]
  exact Rat.floor_def.symm

theorem rhe_eq_floor_or_succ (q : ℚ) : rhe q = ⌊q⌋ ∨ rhe q = ⌊q⌋ + 1 := by
  rw [Rat.floor_def]
  simp only [rhe]
  split
  · exact Or.inl rfl
  split
  · exact Or.inr rfl
  split
  · exact Or.inl rfl
  · exact Or.inr rfl

theorem rhe_nonneg (q : ℚ) (h : 0 ≤ q) : 0 ≤ rhe q := by
  have hf : 0 ≤ ⌊q⌋ := Int.floor_nonneg.mpr h
  rcases rhe_eq_floor_or_succ q with he | he <;> rw [he] <;> omega

/-- Cast of the integer remainder `q.num % q.den` as a fractional part. -/
theorem emod_cast_eq_fract (q : ℚ) :
    ((q.num % (q.den : ℤ) : ℤ) : ℚ) = Int.fract q * (q.den : ℚ) := by
  have hden : ((q.den : ℕ) : ℚ) ≠ 0 := Nat.cast_ne_zero.mpr q.den_ne_zero
  have hnum : ((q.num : ℤ) : ℚ) = q * (q.den : ℚ) :=
    (div_eq_iff hden).mp (Rat.num_div_den q)
  rw [Int.emod_def, ← Rat.floor_def, Int.fract]
  push_cast
  push_cast at hnum
  rw [hnum]
  ring

/-- Round-half-to-even never moves a value by more than one half. -/
theorem rhe_error_bound (q : ℚ) :
    -(1/2) ≤ (rhe q : ℚ) - q ∧ (rhe q : ℚ) - q ≤ 1/2 := by
  have hdQ : (0 : ℚ) < (q.den : ℚ) := by exact_mod_cast q.den_pos
  have hfr0 : 0 ≤ Int.fract q := Int.fract_nonneg q
  have hfr1 : Int.fract q < 1 := Int.fract_lt_one q
  have hfl : ((⌊q⌋ : ℤ) : ℚ) - q = -(Int.fract q) := by
    rw [Int.fract]; ring
  have hcast := emod_cast_eq_fract q
  rw [Rat.floor_def] at hfl
  simp only [rhe]
  split
  · rename_i hlt
    have : (2 * (q.num % (q.den : ℤ)) : ℤ) < (q.den : ℤ) := hlt
    have h2 : 2 * (Int.fract q * (q.den : ℚ)) < (q.den : ℚ) := by
      calc 2 * (Int.fract q * (q.den : ℚ))
          = ((2 * (q.num % (q.den : ℤ)) : ℤ) : ℚ) := by push_cast [hcast]; ring
        _ < (q.den : ℚ) := by exact_mod_cast this
    have hhalf : Int.fract q < 1/2 := by nlinarith
    constructor <;> rw [hfl] <;> linarith
  split
  · rename_i hgt
    have h2 : (q.den : ℚ) < 2 * (Int.fract q * (q.den : ℚ)) := by
      calc (q.den : ℚ) < ((2 * (q.num % (q.den : ℤ)) : ℤ) : ℚ) := by
              exact_mod_cast hgt
        _ = 2 * (Int.fract q * (q.den : ℚ)) := by push_cast [hcast]; ring
    have hhalf : 1/2 < Int.fract q := by nlinarith
    have : ((q.num / (q.den : ℤ) + 1 : ℤ) : ℚ) - q = 1 - Int.fract q := by
      push_cast
      have := hfl
      push_cast at this
      linarith
    constructor <;> rw [this] <;> linarith
  · rename_i h1 h2
    have heq : (2 * (q.num % (q.den : ℤ)) : ℤ) = (q.den : ℤ) := le_antisymm
      (le_of_not_lt h2) (le_of_not_lt h1)
    have h2' : 2 * (Int.fract q * (q.den : ℚ)) = (q.den : ℚ) := by
      calc 2 * (Int.fract q * (q.den : ℚ))
          = ((2 * (q.num % (q.den : ℤ)) : ℤ) : ℚ) := by push_cast [hcast]; ring
        _ = (q.den : ℚ) := by exact_mod_cast heq
    have hhalf : Int.fract q = 1/2 := by nlinarith
    have hsucc : ((q.num / (q.den : ℤ) + 1 : ℤ) : ℚ) - q = 1 - Int.fract q := by
      push_cast
      have := hfl
      push_cast at this
      linarith
    split
    · constructor <;> rw [hfl] <;> linarith
    · constructor <;> rw [hsucc] <;> linarith

theorem meanQ_eq (vs : List ℚ) : meanQ vs = vs.sum / (vs.length : ℚ) := by
  rw [meanQ, scaleDown_eq, qsum_eq]

theorem tallyF_fuel_irrel (fuel fuel' : Nat) (l : List String)
    (h : l.length ≤ fuel) (h' : l.length ≤ fuel') :
    tallyF fuel l = tallyF fuel' l := by
  induction fuel generalizing fuel' l with
  | zero =>
      have : l = [] := List.length_eq_zero.mp (Nat.le_zero.mp h)
      subst this
      cases fuel' <;> rfl
  | succ n ih =>
      cases l with
      | nil => cases fuel' <;> rfl
      | cons a t =>
          cases fuel' with
          | zero => exact absurd h' (by simp)
          | succ m =>
              simp only [tallyF, List.cons.injEq, true_and]
              exact ih _ _
                (le_trans (List.length_filter_le _ _) (Nat.lt_succ_iff.mp h))
                (le_trans (List.length_filter_le _ _) (Nat.lt_succ_iff.mp h'))

theorem tally_nil : tally [] = [] := rfl

theorem tally_cons (a : String) (l : List String) :
    tally (a :: l)
      = (a, 1 + l.count a) :: tally (l.filter (fun b => !(b == a))) := by
  unfold tally
  simp only [List.length_cons, tallyF, List.cons.injEq, true_and]
  exact tallyF_fuel_irrel _ _ _ (List.length_filter_le _ _) le_rfl

theorem tally_fst_mem_aux (n : Nat) :
    ∀ l : List String, l.length ≤ n → ∀ p ∈ tally l, p.1 ∈ l := by
  induction n with
  | zero =>
      intro l hl p hp
      have : l = [] := List.length_eq_zero.mp (Nat.le_zero.mp hl)
      subst this
      simp [tally_nil] at hp
  | succ m ih =>
      intro l hl p hp
      cases l with
      | nil => simp [tally_nil] at hp
      | cons a t =>
          rw [tally_cons] at hp
          rcases List.mem_cons.mp hp with hp | hp
          · rw [hp]; exact List.mem_cons_self _ _
          · have hlen : (t.filter (fun b => !(b == a))).length ≤ m :=
              le_trans (List.length_filter_le _ _)
                (Nat.lt_succ_iff.mp (Nat.lt_of_lt_of_le (by simp) hl))
            have := ih _ hlen p hp
            exact List.mem_cons_of_mem _ (List.mem_of_mem_filter this)

/-- Keys of the tally come from the list. -/
theorem tally_fst_mem (l : List String) : ∀ p ∈ tally l, p.1 ∈ l :=
  tally_fst_mem_aux l.length l le_rfl

theorem tally_count_aux (n : Nat) :
    ∀ l : List String, l.length ≤ n → ∀ p ∈ tally l, p.2 = l.count p.1 := by
  induction n with
  | zero =>
      intro l hl p hp
      have : l = [] := List.length_eq_zero.mp (Nat.le_zero.mp hl)
      subst this
      simp [tally_nil] at hp
  | succ m ih =>
      intro l hl p hp
      cases l with
      | nil => simp [tally_nil] at hp
      | cons a t =>
          rw [tally_cons] at hp
          rcases List.mem_cons.mp hp with hp | hp
          · rw [hp]
            simp [List.count_cons_self, Nat.add_comm]
          · have hlen : (t.filter (fun b => !(b == a))).length ≤ m :=
              le_trans (List.length_filter_le _ _)
                (Nat.lt_succ_iff.mp (Nat.lt_of_lt_of_le (by simp) hl))
            have hne : p.1 ≠ a := by
              have hmem := tally_fst_mem _ p hp
              have := List.of_mem_filter hmem
              simpa using this
            have hcnt := ih _ hlen p hp
            rw [hcnt, List.count_filter (by simpa using hne),
              List.count_cons_of_ne hne]

/-- Every count recorded by the tally is the occurrence count in the list. -/
theorem tally_count (l : List String) : ∀ p ∈ tally l, p.2 = l.count p.1 :=
  tally_count_aux l.length l le_rfl

theorem tally_complete_aux (n : Nat) :
    ∀ l : List String, l.length ≤ n → ∀ v ∈ l, ∃ k, (v, k) ∈ tally l := by
  induction n with
  | zero =>
      intro l hl v hv
      have : l = [] := List.length_eq_zero.mp (Nat.le_zero.mp hl)
      subst this
      simp at hv
  | succ m ih =>
      intro l hl v hv
      cases l with
      | nil => simp at hv
      | cons a t =>
          rw [tally_cons]
          by_cases hva : v = a
          · exact ⟨1 + t.count a, by rw [hva]; exact List.mem_cons_self _ _⟩
          · have hvt : v ∈ t := by
              rcases List.mem_cons.mp hv with h | h
              · exact absurd h hva
              · exact h
            have hvf : v ∈ t.filter (fun b => !(b == a)) :=
              List.mem_filter.mpr ⟨hvt, by simpa using hva⟩
            have hlen : (t.filter (fun b => !(b == a))).length ≤ m :=
              le_trans (List.length_filter_le _ _)
                (Nat.lt_succ_iff.mp (Nat.lt_of_lt_of_le (by simp) hl))
            obtain ⟨k, hk⟩ := ih _ hlen v hvf
            exact ⟨k, List.mem_cons_of_mem _ hk⟩

/-- Every value of the list has an entry in the tally. -/
theorem tally_complete (l : List String) :
    ∀ v ∈ l, ∃ k, (v, k) ∈ tally l :=
  tally_complete_aux l.length l le_rfl

theorem length_filter_partition {α : Type} (p : α → Bool) (l : List α) :
    (l.filter p).length + (l.filter (fun b => !(p b))).length = l.length := by
  induction l with
  | nil => rfl
  | cons a t ih =>
      cases h : p a <;> simp [List.filter_cons, h, ← ih] <;> omega

theorem tally_sum_aux (n : Nat) :
    ∀ l : List String, l.length ≤ n →
      ((tally l).map Prod.snd).sum = l.length := by
  induction n with
  | zero =>
      intro l hl
      have : l = [] := List.length_eq_zero.mp (Nat.le_zero.mp hl)
      subst this
      simp [tally_nil]
  | succ m ih =>
      intro l hl
      cases l with
      | nil => simp [tally_nil]
      | cons a t =>
          rw [tally_cons]
          have hlen : (t.filter (fun b => !(b == a))).length ≤ m :=
            le_trans (List.length_filter_le _ _)
              (Nat.lt_succ_iff.mp (Nat.lt_of_lt_of_le (by simp) hl))
          have hsum := ih _ hlen
          have hpart := length_filter_partition (fun b => b == a) t
          have hcnt : t.count a = (t.filter (fun b => b == a)).length := by
            rw [List.count]
            exact List.countP_eq_length_filter _ _
          simp only [List.map_cons, List.sum_cons, hsum, List.length_cons]
          omega

/-- Tally counts sum to the length of the list. -/
theorem tally_sum (l : List String) :
    ((tally l).map Prod.snd).sum = l.length :=
  tally_sum_aux l.length l le_rfl

theorem filter_orderedInsert_eq (x : String × Nat) (zs : List (String × Nat))
    (c : Nat) (hx : x.2 = c) :
    (List.orderedInsert cntGE x zs).filter (fun p => p.2 == c)
      = x :: zs.filter (fun p => p.2 == c) := by
  induction zs with
  | nil => simp [List.orderedInsert, hx]
  | cons b bs ih =>
      by_cases hb : cntGE x b
      · simp [List.orderedInsert, hb, List.filter_cons, hx]
      · have hbne : b.2 ≠ c := by
          have : x.2 < b.2 := Nat.lt_of_not_le hb
          omega
        simp [List.orderedInsert, hb, List.filter_cons, hbne, ih]

theorem filter_orderedInsert_ne (x : String × Nat) (zs : List (String × Nat))
    (c : Nat) (hx : x.2 ≠ c) :
    (List.orderedInsert cntGE x zs).filter (fun p => p.2 == c)
      = zs.filter (fun p => p.2 == c) := by
  have hxc : ¬ (x.2 == c) = true := by simpa using hx
  induction zs with
  | nil => simp [List.orderedInsert, hx]
  | cons b bs ih =>
      by_cases hb : cntGE x b
      · simp [List.orderedInsert, hb, List.filter_cons, hx]
      · simp [List.orderedInsert, hb, List.filter_cons, ih]

/-- Stability of the sort: within one count value, the sorted distribution
keeps the order of the unsorted (first-appearance-ordered) tally. -/
theorem insertionSort_stable_on_count (l : List (String × Nat)) (c : Nat) :
    (List.insertionSort cntGE l).filter (fun p => p.2 == c)
      = l.filter (fun p => p.2 == c) := by
  induction l with
  | nil => rfl
  | cons a t ih =>
      simp only [List.insertionSort]
      by_cases ha : a.2 = c
      · rw [filter_orderedInsert_eq _ _ _ ha, ih]
        simp [List.filter_cons, ha]
      · rw [filter_orderedInsert_ne _ _ _ ha, ih]
        simp [List.filter_cons, ha]

/-! ## Helper lemmas -/

theorem matchAt_eq_litPrefix (pat : List Char)
    (hp : ∀ c ∈ pat, c.isAlphanum || c = ' ') :
    ∀ txt, matchAt pat txt = litPrefix pat txt := by
  induction pat with
  | nil => intro txt; cases txt <;> rfl
  | cons p ps ih =>
      intro txt
      cases txt with
      | nil => rfl
      | cons c cs =>
          have hpd : p ≠ '.' := by
            intro h
            have := hp p (List.mem_cons_self _ _)
            rw [h] at this
            simp at this
          have hps : ∀ c ∈ ps, c.isAlphanum || c = ' ' :=
            fun c hc => hp c (List.mem_cons_of_mem _ hc)
          show (charMatch p c && matchAt ps cs) = _
          rw [ih hps cs]
          simp [charMatch, litPrefix, hpd]

theorem reSearch_eq_litSearch (pat : List Char)
    (hp : ∀ c ∈ pat, c.isAlphanum || c = ' ') :
    ∀ txt, reSearch pat txt = litSearch pat txt := by
  intro txt
  induction txt with
  | nil => exact matchAt_eq_litPrefix pat hp []
  | cons c cs ih =>
      show (matchAt pat (c :: cs) || reSearch pat cs) = _
      rw [matchAt_eq_litPrefix pat hp, ih]
      rfl

theorem substringCI_empty (s : String) : substringCI "" s = true := by
  show litSearch [] s.data = true
  induction s.data with
  | nil => rfl
  | cons c cs ih => simp [litSearch, litPrefix]

theorem presentVals_append_absent (get : Company → Option ℚ)
    (view : List Company) (r : Company) (h : get r = none) :
    presentVals get (view ++ [r]) = presentVals get view := by
  simp [presentVals, List.filterMap_append, h]

theorem presentVals_nil (get : Company → Option ℚ) :
    presentVals get [] = [] := rfl

theorem presentVals_employees_nonneg (view : List Company) :
    ∀ x ∈ presentVals employeesQ view, 0 ≤ x := by
  intro x hx
  rcases List.mem_filterMap.mp hx with ⟨r, _, hr⟩
  cases he : r.employees with
  | none => rw [employeesQ, he] at hr; simp at hr
  | some n =>
      rw [employeesQ, he] at hr
      obtain rfl : (n : ℚ) = x := by simpa using hr
      exact Nat.cast_nonneg n

theorem meanCard_of_present (get : Company → Option ℚ) (view : List Company)
    (hv : presentVals get view ≠ []) :
    meanCard get view
      = some (toString (truncQ (meanQ (presentVals get view)))) := by
  have hview : view ≠ [] := by
    intro h
    exact hv (by rw [h]; rfl)
  cases view with
  | nil => exact absurd rfl hview
  | cons a t =>
      simp only [meanCard, List.isEmpty_cons, Bool.false_eq_true, if_false]
      rw [if_neg]
      simpa [List.isEmpty_iff] using hv

theorem meanCard_fault (get : Company → Option ℚ) (view : List Company)
    (hview : view ≠ []) (hv : presentVals get view = []) :
    meanCard get view = none := by
  cases view with
  | nil => exact absurd rfl hview
  | cons a t =>
      simp only [meanCard, List.isEmpty_cons, Bool.false_eq_true, if_false]
      rw [if_pos]
      simp [hv]

theorem truncQ_mean_bounds (vs : List ℚ) (hpos : ∀ x ∈ vs, 0 ≤ x) :
    (truncQ (meanQ vs) : ℚ) ≤ meanQ vs ∧
      meanQ vs < truncQ (meanQ vs) + 1 := by
  have h0 : 0 ≤ meanQ vs := by
    rw [meanQ_eq]
    exact div_nonneg (List.sum_nonneg hpos) (Nat.cast_nonneg _)
  rw [truncQ_eq_floor _ h0]
  exact ⟨Int.floor_le _, Int.lt_floor_add_one _⟩

/-! ## Claims -/

/-- C1: the milestones branch (lines 152-155) hands a string cell to a
general code evaluator (`eval`), not a safe structured-data parser, and a
string that fails to parse raises an exception (`none` here) instead of
yielding the empty sequence with a logged warning.  This theorem evaluates
the modelled branch: the failing input `"not a list"` produces an
exception and not the empty list; a well-formed literal and an
already-parsed sequence go through. -/
theorem milestones_eval_no_fallback :
    milestonesOf (MsField.str "not a list") = none ∧
      milestonesOf (MsField.str "not a list") ≠ some [] ∧
      milestonesOf (MsField.str "['First plasma', 'New lab']")
        = some ["First plasma", "New lab"] ∧
      milestonesOf (MsField.listv ["a", "b"]) = some ["a", "b"] := by
  refine ⟨by decide, by decide, by decide, rfl⟩

/-- C2 counterexample: with a non-empty base view, an empty fuel-source
selection filters out every record - `isin([])` holds for no row - so the
result is the empty view, not the full base view the claim requires. -/
theorem fuelFilter_empty_cex :
    sidebarFilter [] ["MCF"] [demo1] = [] ∧
      [demo1] ≠ ([] : List Company) := by
  refine ⟨by decide, by decide⟩

/-- C2 amended: an empty fuel-source selection excludes every record
(matches-none, the opposite of a disabled predicate); every record of the
base survives exactly when its fuel source and approach both belong to the
selections (in particular under the full-domain default of the sidebar). -/
theorem fuelFilter_empty_matches_none (approaches : List String)
    (base : List Company) :
    sidebarFilter [] approaches base = [] ∧
      (∀ fuels : List String,
        (∀ r ∈ base, r.fuel_source ∈ fuels ∧ r.general_approach ∈ approaches) →
          sidebarFilter fuels approaches base = base) := by
  constructor
  · apply List.eq_nil_of_length_eq_zero
    have : ∀ r ∈ base, sidebarPred [] approaches r = false := by
      intro r _
      simp [sidebarPred]
    induction base with
    | nil => rfl
    | cons a t ih =>
        rw [sidebarFilter, List.filter_cons,
          if_neg (by rw [this a (List.mem_cons_self _ _)]; simp)]
        exact ih (fun r hr => this r (List.mem_cons_of_mem _ hr))
  · intro fuels h
    apply List.filter_eq_self.mpr
    intro r hr
    have := h r hr
    simp [sidebarPred, this.1, this.2]

/-- C2 witness: a concrete base on which the empty selection yields the
empty view while the full-domain selection keeps every record. -/
theorem fuelFilter_empty_matches_none_witness :
    sidebarFilter [] ["MCF"] [demo1] = [] ∧
      sidebarFilter ["D-T"] ["MCF"] [demo1] = [demo1] :=
  ⟨(fuelFilter_empty_matches_none ["MCF"] [demo1]).1,
    (fuelFilter_empty_matches_none ["MCF"] [demo1]).2 ["D-T"] (by decide)⟩

/-- C9: when the fetch yields `None` or an empty frame, `main` stops at the
guard of lines 55-57 with the user-visible error message; no filtering or
aggregation is reached (the `noData` outcome carries no derived view). -/
theorem noData_guard (fetched : Option (List Company))
    (fuels approaches : List String)
    (h : fetched = none ∨ fetched = some []) :
    runMain fetched fuels approaches = MainOutcome.noData noDataMsg := by
  rcases h with h | h <;> rw [h] <;> rfl

/-- C9 witness: both terminal inputs at concrete values. -/
theorem noData_guard_witness :
    runMain none ["D-T"] ["MCF"] = MainOutcome.noData noDataMsg :=
  noData_guard none ["D-T"] ["MCF"] (Or.inl rfl)

/-- C3 counterexample: a non-empty view in which every employees and
output cell is absent makes both average cards fault (`int` applied to the
`NaN` mean raises `ValueError`, modelled by `none`), instead of reporting
the zero placeholder the claim requires. -/
theorem meanCards_fault_cex :
    avgEmployeesCard [noNums] = none ∧
      avgOutputCard [noNums] = none ∧
      [noNums] ≠ ([] : List Company) := by
  refine ⟨by decide, by decide, by decide⟩

/-- C3 amended: the means are taken over present cells only - appending a
record with an absent cell leaves the card unchanged while the view count
grows - and the empty view reports the zero placeholder; but a non-empty
view whose column has no present cell faults (`int(nan)`) instead of
reporting a placeholder. -/
theorem meanCards_present_only (view : List Company) (r : Company) :
    (view = [] →
      avgEmployeesCard view = some "0" ∧ avgOutputCard view = some "0 MWe") ∧
    (view ≠ [] → presentVals employeesQ view = [] →
      avgEmployeesCard view = none) ∧
    (view ≠ [] → presentVals outputQ view = [] →
      avgOutputCard view = none) ∧
    (employeesQ r = none → presentVals employeesQ view ≠ [] →
      avgEmployeesCard (view ++ [r]) = avgEmployeesCard view ∧
        (view ++ [r]).length = view.length + 1) ∧
    (outputQ r = none → presentVals outputQ view ≠ [] →
      avgOutputCard (view ++ [r]) = avgOutputCard view ∧
        (view ++ [r]).length = view.length + 1) := by
  refine ⟨?_, ?_, ?_, ?_, ?_⟩
  · rintro rfl
    exact ⟨rfl, rfl⟩
  · intro hne hv
    exact meanCard_fault _ _ hne hv
  · intro hne hv
    rw [avgOutputCard, meanCard_fault _ _ hne hv]
    rfl
  · intro hr hv
    have happ : view ++ [r] ≠ [] := by simp
    have hva : presentVals employeesQ (view ++ [r])
        = presentVals employeesQ view :=
      presentVals_append_absent _ _ _ hr
    constructor
    · rw [avgEmployeesCard, avgEmployeesCard,
        meanCard_of_present _ _ (by rw [hva]; exact hv),
        meanCard_of_present _ _ hv, hva]
    · simp
  · intro hr hv
    have hva : presentVals outputQ (view ++ [r])
        = presentVals outputQ view :=
      presentVals_append_absent _ _ _ hr
    constructor
    · rw [avgOutputCard, avgOutputCard,
        meanCard_of_present _ _ (by rw [hva]; exact hv),
        meanCard_of_present _ _ hv, hva]
    · simp

/-- C3 witness: appending the all-absent row to a one-row view leaves both
average cards unchanged while the count grows to two. -/
theorem meanCards_present_only_witness :
    avgEmployeesCard ([demo1] ++ [noNums]) = avgEmployeesCard [demo1] ∧
      ([demo1] ++ [noNums]).length = [demo1].length + 1 :=
  (meanCards_present_only [demo1] noNums).2.2.2.1 (by decide) (by decide)

/-- C4 counterexample: the malformed input `"99"` is returned unchanged by
the year formatter - the Python slice `"99"[:4]` is `"99"` - so the
formatter yields the malformed value itself, not a safe placeholder. -/
theorem yearFmt_short_cex : yearFmt "99" = "99" := by decide

/-- C4 amended: year formatting takes the first four characters, so
`"2012-01-01"` formats to `"2012"`; the slice is total - on any string of
at most four characters it returns the string unchanged (no fault, but
also no placeholder substitution), and its output never exceeds four
characters. -/
theorem yearFmt_amended :
    yearFmt "2012-01-01" = "2012" ∧
      (∀ s : String, s.length ≤ 4 → yearFmt s = s) ∧
      (∀ s : String, (yearFmt s).length = min 4 s.length) := by
  refine ⟨by decide, ?_, ?_⟩
  · intro s hs
    show String.mk (s.data.take 4) = s
    rw [List.take_of_length_le hs]
  · intro s
    show (s.data.take 4).length = min 4 s.data.length
    exact List.length_take 4 s.data

/-- C4 witness: the short-string identity at a concrete input. -/
theorem yearFmt_amended_witness : yearFmt "abc" = "abc" :=
  yearFmt_amended.2.1 "abc" (by decide)

/-- C5: `value_counts` (lines 198 and 208) maps each distinct value of the
column to its occurrence count (and covers every value), its counts sum
exactly to the view size, it is sorted by descending count, and within any
one count value it keeps the order of the first-appearance-keyed tally -
ties are broken by first appearance in the view.  The last two conjuncts
instantiate the sum property for the two charts of the source. -/
theorem value_counts_spec (l : List String) (view : List Company) :
    (∀ p ∈ value_counts l, p.2 = l.count p.1) ∧
    (∀ v ∈ l, ∃ k, (v, k) ∈ value_counts l) ∧
    ((value_counts l).map Prod.snd).sum = l.length ∧
    List.Sorted cntGE (value_counts l) ∧
    (∀ c, (value_counts l).filter (fun p => p.2 == c)
      = (tally l).filter (fun p => p.2 == c)) ∧
    ((approach_counts view).map Prod.snd).sum = view.length ∧
    ((fuel_counts view).map Prod.snd).sum = view.length := by
  have hperm : ∀ m : List String, (value_counts m).Perm (tally m) :=
    fun m => List.perm_insertionSort cntGE (tally m)
  have hsum : ∀ m : List String,
      ((value_counts m).map Prod.snd).sum = m.length := by
    intro m
    rw [((hperm m).map Prod.snd).sum_eq, tally_sum]
  refine ⟨?_, ?_, hsum l, ?_, ?_, ?_, ?_⟩
  · intro p hp
    exact tally_count l p ((hperm l).mem_iff.mp hp)
  · intro v hv
    obtain ⟨k, hk⟩ := tally_complete l v hv
    exact ⟨k, (hperm l).mem_iff.mpr hk⟩
  · exact List.sorted_insertionSort cntGE (tally l)
  · exact insertionSort_stable_on_count (tally l)
  · rw [approach_counts, hsum, List.length_map]
  · rw [fuel_counts, hsum, List.length_map]

/-- C5 witness: the count property discharged at a concrete pair of a
three-element column, and the counts-sum-to-size property on a concrete
two-row view. -/
theorem value_counts_spec_witness :
    ("x", 2).2 = List.count ("x", 2).1 ["x", "y", "x"] ∧
      ((fuel_counts [demo1, demo2]).map Prod.snd).sum
        = ([demo1, demo2] : List Company).length :=
  ⟨(value_counts_spec ["x", "y", "x"] []).1 ("x", 2) (by decide),
    (value_counts_spec [] [demo1, demo2]).2.2.2.2.2.2⟩

/-- C6: the composed filter pipeline (sidebar filters of lines 79-82
followed by the tab-local search and threshold stages of lines 235-244)
returns a sublist of the base view - so survivors keep their base order
and each survivor's name occurs among the base names - and re-applying the
same predicate set to its own result is the identity. -/
theorem filter_engine_spec (P : PredicateSet) (base : List Company) :
    (applyFilters P base).Sublist base ∧
      applyFilters P (applyFilters P base) = applyFilters P base ∧
      (∀ r ∈ applyFilters P base, r.name ∈ base.map Company.name) := by
  refine ⟨?_, ?_, ?_⟩
  · rw [applyFilters_eq_filter]
    exact List.filter_sublist base
  · rw [applyFilters_eq_filter, applyFilters_eq_filter, List.filter_filter]
    exact List.filter_congr (fun r _ => Bool.and_self _)
  · intro r hr
    rw [applyFilters_eq_filter] at hr
    exact List.mem_map_of_mem _ (List.mem_of_mem_filter hr)

/-- C6 witness: membership of a surviving record's name among the base
names, at a concrete predicate set and base. -/
theorem filter_engine_spec_witness :
    demo1.name ∈ ([demo1, demo2] : List Company).map Company.name :=
  (filter_engine_spec ⟨["D-T"], ["MCF"], "", 0⟩ [demo1, demo2]).2.2 demo1
    (by decide)

/-- C7 counterexample: with the search term `"."`, the code keeps a record
whose name and description contain no dot at all - `str.contains` compiles
the term as a regular expression, in which the dot matches any character -
whereas the claimed case-insensitive-substring semantics would keep
nothing. -/
theorem search_regex_cex :
    searchApply "." [dotRec] = [dotRec] ∧
      substringCI "." dotRec.name = false ∧
      substringCI "." dotRec.description = false ∧
      [dotRec].filter
        (fun r => substringCI "." r.name || substringCI "." r.description)
        = [] := by
  refine ⟨by decide, by decide, by decide, by decide⟩

/-- C7 amended: the search stage treats the term as a case-insensitive
regular expression matched against name OR description; an empty or absent
term disables the stage, and for terms without regular-expression
metacharacters (here: alphanumeric characters and spaces) the behaviour
coincides with the claimed case-insensitive substring test. -/
theorem search_amended (term : String) (df : List Company) :
    (term = "" → searchApply term df = df) ∧
      ((∀ c ∈ term.data, c.isAlphanum || c = ' ') →
        searchApply term df = df.filter
          (fun r => substringCI term r.name || substringCI term r.description)) := by
  constructor
  · intro h
    rw [searchApply, if_pos h]
  · intro hterm
    by_cases h : term = ""
    · rw [searchApply, if_pos h, h]
      refine (List.filter_eq_self.mpr ?_).symm
      intro r _
      simp [substringCI_empty]
    · rw [searchApply, if_neg h]
      exact List.filter_congr (fun r _ => by
        rw [searchPred, substringCI, substringCI,
          reSearch_eq_litSearch _ hterm, reSearch_eq_litSearch _ hterm])

/-- C7 witness: the literal-term equivalence discharged on a concrete
catalog and the alphanumeric term `"laser"`. -/
theorem search_amended_witness :
    searchApply "laser" [demo1, demo2]
      = ([demo1, demo2] : List Company).filter
          (fun r => substringCI "laser" r.name ||
            substringCI "laser" r.description) :=
  (search_amended "laser" [demo1, demo2]).2 (by decide)

/-- C8 counterexample: the per-company funding metric of lines 146-147
uses zero decimals (`:.0f`): a funding of 1,500,000 USD renders as
`"$2M"`, not as the one-decimal `"$1.5M"` the claim requires for that
metric. -/
theorem companyFunding_zero_decimals_cex :
    companyFundingMetric 1500000 = "$2M" ∧ "$2M" ≠ "$1.5M" := by
  refine ⟨by decide, by decide⟩

/-- C8 amended: for every non-negative amount, the detail-table funding
cell renders millions with exactly one decimal digit (its tenths count is
within one half of the exact tenths-of-a-million value), the total-funding
card renders billions with exactly one decimal digit on any non-empty
view, but the per-company funding metric renders whole millions with zero
decimals (its millions count is within one half of the exact millions
value). -/
theorem fundingFormat_amended (x : ℚ) (hx : 0 ≤ x) :
    (∃ n : Nat,
      detailFundingCell x
        = "$" ++ toString (n / 10) ++ "." ++ toString (n % 10) ++ "M" ∧
      -(1/2 : ℚ) ≤ (n : ℚ) - x / 100000 ∧ (n : ℚ) - x / 100000 ≤ 1/2) ∧
    (∃ m : Nat,
      companyFundingMetric x = "$" ++ toString m ++ "M" ∧
      -(1/2 : ℚ) ≤ (m : ℚ) - x / 1000000 ∧ (m : ℚ) - x / 1000000 ≤ 1/2) ∧
    (∀ view : List Company, view ≠ [] →
      ∃ k : Nat, totalFundingCard view
        = "$" ++ toString (k / 10) ++ "." ++ toString (k % 10) ++ "B") := by
  have key : ∀ d : Nat,
      -(1/2 : ℚ) ≤ (((rhe (scaleDown x d)).toNat : ℚ)) - x / (d : ℚ) ∧
        (((rhe (scaleDown x d)).toNat : ℚ)) - x / (d : ℚ) ≤ 1/2 := by
    intro d
    have hsd : scaleDown x d = x / (d : ℚ) := scaleDown_eq x d
    have hq : (0:ℚ) ≤ scaleDown x d := by
      rw [hsd]
      exact div_nonneg hx (Nat.cast_nonneg d)
    have hcast : (((rhe (scaleDown x d)).toNat : ℕ) : ℚ)
        = ((rhe (scaleDown x d) : ℤ) : ℚ) := by
      exact_mod_cast congrArg (fun z : ℤ => (z : ℚ))
        (Int.toNat_of_nonneg (rhe_nonneg _ hq))
    have hb := rhe_error_bound (scaleDown x d)
    constructor
    · rw [← hsd, hcast]
      exact hb.1
    · rw [← hsd, hcast]
      exact hb.2
  refine ⟨?_, ?_, ?_⟩
  · refine ⟨(rhe (scaleDown x 100000)).toNat, rfl, ?_, ?_⟩
    · have := (key 100000).1
      push_cast at this ⊢
      linarith
    · have := (key 100000).2
      push_cast at this ⊢
      linarith
  · refine ⟨(rhe (scaleDown x 1000000)).toNat, rfl, ?_, ?_⟩
    · have := (key 1000000).1
      push_cast at this ⊢
      linarith
    · have := (key 1000000).2
      push_cast at this ⊢
      linarith
  · intro view hview
    cases view with
    | nil => exact absurd rfl hview
    | cons a t =>
        exact ⟨(rhe (scaleDown (qsum (presentVals fundingQ (a :: t)))
          100000000)).toNat, rfl⟩

/-- C8 witness: concrete renderings - one decimal in the detail cell,
zero decimals in the per-company metric. -/
theorem fundingFormat_amended_witness :
    (0:ℚ) ≤ 1250000 ∧
      (∃ n : Nat, detailFundingCell 1250000
        = "$" ++ toString (n / 10) ++ "." ++ toString (n % 10) ++ "M" ∧
        -(1/2 : ℚ) ≤ (n : ℚ) - 1250000 / 100000 ∧
          (n : ℚ) - 1250000 / 100000 ≤ 1/2) ∧
      detailFundingCell 1250000 = "$1.2M" ∧
      companyFundingMetric 1250000 = "$1M" :=
  ⟨by decide, (fundingFormat_amended 1250000 (by decide)).1,
    by decide, by decide⟩

/-- C10: the displayed average cards are the exact arithmetic mean of the
present cells truncated toward zero to an integer (`int()` conversion) -
the value shown is the unique integer bracketing the mean from below -
rather than the exact or a rounded mean. -/
theorem avgCards_truncate (view : List Company)
    (he : presentVals employeesQ view ≠ []) :
    avgEmployeesCard view
      = some (toString (truncQ (meanQ (presentVals employeesQ view)))) ∧
    (truncQ (meanQ (presentVals employeesQ view)) : ℚ)
      ≤ meanQ (presentVals employeesQ view) ∧
    meanQ (presentVals employeesQ view)
      < truncQ (meanQ (presentVals employeesQ view)) + 1 ∧
    (presentVals outputQ view ≠ [] →
      avgOutputCard view
        = some (toString (truncQ (meanQ (presentVals outputQ view)))
            ++ " MWe")) := by
  obtain ⟨h1, h2⟩ :=
    truncQ_mean_bounds _ (presentVals_employees_nonneg view)
  refine ⟨meanCard_of_present _ _ he, h1, h2, ?_⟩
  intro ho
  rw [avgOutputCard, meanCard_of_present _ _ ho]
  rfl

/-- C10 witness: a ten-row view whose employee counts have exact mean 9.9
displays `"9"` - truncation toward zero, where rounding would give 10. -/
theorem avgCards_truncate_witness : avgEmployeesCard demoTen = some "9" :=
  Eq.trans ((avgCards_truncate demoTen (by decide)).1) (by decide)

end FusionDash
